import Mathlib

/-!
Shallow embedding of `bcbio/hla/bwakit.py`: HLA allele calling with bwakit,
parsing per-locus genotype output files, cross-referencing an optional truth
set and writing a CSV summary report.  Strings are modelled as lists of
characters; the filesystem as an association list from paths to lists of
lines (a line carries no trailing newline).
-/

namespace BwakitHLA

/-- Strings are modelled as lists of characters. -/
abbrev Str := List Char

/-- Python `s.split(c)` for a one-character separator `c`
(`"".split(c) = [""]`, separators at the ends yield empty groups). -/
def splitOnCh (c : Char) : Str → List Str
  | [] => [[]]
  | a :: as =>
    if a = c then [] :: splitOnCh c as
    else
      match splitOnCh c as with
      | [] => [[a]]
      | g :: gs => (a :: g) :: gs

/-- Python `c.join(gs)` for a one-character separator `c`. -/
def joinCh (c : Char) : List Str → Str
  | [] => []
  | [g] => g
  | g :: g2 :: gs => g ++ c :: joinCh c (g2 :: gs)

/-- Translation of `_hla_protein` (bwakit.py lines 67-74):
`":".join(name.split(":")[:2])`. -/
def hla_protein (name : Str) : Str :=
  joinCh ':' ((splitOnCh ':' name).take 2)

theorem splitOnCh_ne_nil (c : Char) (s : Str) : splitOnCh c s ≠ [] := by
  induction s with
  | nil => simp [splitOnCh]
  | cons a as ih =>
    simp only [splitOnCh]
    split
    · simp
    · cases h : splitOnCh c as with
      | nil => simp
      | cons g gs => simp

theorem not_mem_of_mem_splitOnCh {c : Char} {s g : Str}
    (hg : g ∈ splitOnCh c s) : c ∉ g := by
  induction s generalizing g with
  | nil =>
    simp [splitOnCh] at hg
    simp [hg]
  | cons a as ih =>
    simp only [splitOnCh] at hg
    by_cases hac : a = c
    · simp [hac] at hg
      rcases hg with hg | hg
      · simp [hg]
      · exact ih hg
    · simp [hac] at hg
      cases h : splitOnCh c as with
      | nil => exact absurd h (splitOnCh_ne_nil c as)
      | cons g0 gs0 =>
        rw [h] at hg
        simp at hg
        rcases hg with hg | hg
        · subst hg
          intro hmem
          rcases List.mem_cons.mp hmem with h1 | h1
          · exact hac h1.symm
          · exact ih (h ▸ List.mem_cons_self g0 gs0) h1
        · exact ih (h ▸ List.mem_cons_of_mem g0 hg)

theorem joinCh_splitOnCh (c : Char) (s : Str) :
    joinCh c (splitOnCh c s) = s := by
  induction s with
  | nil => simp [splitOnCh, joinCh]
  | cons a as ih =>
    simp only [splitOnCh]
    by_cases hac : a = c
    · subst hac
      simp only [if_pos rfl]
      cases h : splitOnCh a as with
      | nil => exact absurd h (splitOnCh_ne_nil a as)
      | cons g gs =>
        rw [h] at ih
        simp [joinCh, ih]
    · simp only [if_neg hac]
      cases h : splitOnCh c as with
      | nil => exact absurd h (splitOnCh_ne_nil c as)
      | cons g gs =>
        rw [h] at ih
        cases gs with
        | nil => simp [joinCh] at ih ⊢; simp [ih]
        | cons g2 gs2 => simp [joinCh] at ih ⊢; simp [ih]

theorem splitOnCh_of_not_mem {c : Char} {g : Str} (hg : c ∉ g) :
    splitOnCh c g = [g] := by
  induction g with
  | nil => simp [splitOnCh]
  | cons a as ih =>
    simp at hg
    have hac : ¬(a = c) := fun h => hg.1 h.symm
    simp only [splitOnCh, if_neg hac, ih hg.2]

theorem splitOnCh_append_sep {c : Char} {g : Str} (hg : c ∉ g) (s : Str) :
    splitOnCh c (g ++ c :: s) = g :: splitOnCh c s := by
  induction g with
  | nil => simp [splitOnCh]
  | cons a as ih =>
    simp at hg
    have hac : ¬(a = c) := fun h => hg.1 h.symm
    simp only [List.cons_append, splitOnCh, if_neg hac, List.append_eq,
      ih hg.2]

theorem splitOnCh_joinCh {c : Char} {gs : List Str} (hne : gs ≠ [])
    (hmem : ∀ g ∈ gs, c ∉ g) : splitOnCh c (joinCh c gs) = gs := by
  induction gs with
  | nil => exact absurd rfl hne
  | cons g gs ih =>
    cases gs with
    | nil =>
      simp [joinCh]
      exact splitOnCh_of_not_mem (hmem g (List.mem_cons_self g []))
    | cons g2 gs2 =>
      have h1 : c ∉ g := hmem g (List.mem_cons_self _ _)
      have h2 : ∀ x ∈ g2 :: gs2, c ∉ x := fun x hx =>
        hmem x (List.mem_cons_of_mem _ hx)
      simp only [joinCh, splitOnCh_append_sep h1]
      rw [ih (by simp) h2]

theorem length_splitOnCh (c : Char) (s : Str) :
    (splitOnCh c s).length = s.count c + 1 := by
  induction s with
  | nil => simp [splitOnCh]
  | cons a as ih =>
    simp only [splitOnCh]
    by_cases hac : a = c
    · subst hac
      simp [List.count_cons, ih]
    · simp only [if_neg hac]
      cases h : splitOnCh c as with
      | nil => exact absurd h (splitOnCh_ne_nil c as)
      | cons g gs =>
        rw [h] at ih
        simp at ih
        simp [List.count_cons, Ne.symm hac, ih, hac]

/-- C8: `_hla_protein` is idempotent, and on every name containing at most
one ":" separator it is the identity. -/
theorem hla_protein_idempotent_and_id (s : Str) :
    hla_protein (hla_protein s) = hla_protein s ∧
      (s.count ':' ≤ 1 → hla_protein s = s) := by
  constructor
  · have hne : (splitOnCh ':' s).take 2 ≠ [] := by
      cases h : splitOnCh ':' s with
      | nil => exact absurd h (splitOnCh_ne_nil ':' s)
      | cons g gs => simp
    have hmem : ∀ g ∈ (splitOnCh ':' s).take 2, ':' ∉ g := fun g hg =>
      not_mem_of_mem_splitOnCh (List.take_subset 2 _ hg)
    have hlen : ((splitOnCh ':' s).take 2).length ≤ 2 := by
      simp [List.length_take]
    unfold hla_protein
    rw [splitOnCh_joinCh hne hmem, List.take_of_length_le hlen]
  · intro hcount
    have hlen : (splitOnCh ':' s).length ≤ 2 := by
      rw [length_splitOnCh]; omega
    unfold hla_protein
    rw [List.take_of_length_le hlen, joinCh_splitOnCh]

/-- Witness for C8 at the concrete allele name "A*01". -/
theorem hla_protein_idempotent_and_id_witness :
    ("A*01".toList.count ':' ≤ 1) ∧
      hla_protein "A*01".toList = "A*01".toList :=
  ⟨by decide, (hla_protein_idempotent_and_id "A*01".toList).2 (by decide)⟩

/-- Filesystem model: association list from paths to file contents, a
content being the list of lines (without trailing newlines). -/
abbrev FS := List (Str × List Str)

/-- Lookup of a path in the filesystem (first matching entry). -/
def fsLookup (fs : FS) (p : Str) : Option (List Str) :=
  (fs.find? fun e => decide (e.1 = p)).map (fun e => e.2)

/-- Write of a file: replaces any entry for the same path.  Models
`file_transaction` plus `open(..., "w")`, i.e. an atomic overwrite. -/
def fsWrite (fs : FS) (p : Str) (content : List Str) : FS :=
  (p, content) :: fs.filter fun e => !(decide (e.1 = p))

/-- Modelled from the spec: `utils.file_exists` (from `bcbio.utils`, not in
src/) is the module's "checking file existence"; modelled as presence of the
path in the filesystem. -/
def file_exists (fs : FS) (p : Str) : Bool :=
  (fsLookup fs p).isSome

/-- Modelled from the spec: the `data` mapping handed around the pipeline.
`alignBam` and `sampleName` stand for the `dd.get_align_bam` and
`dd.get_sample_name` accessors (from `bcbio.pipeline.datadict`, not in
src/); `hlavalidate` is the `["config","algorithm","hlavalidate"]` entry
(`none` = absent or `None`, `some []` = empty/falsy string); `hla` is the
`data["hla"]["calls"]` entry; `rest` stands for all the other keys. -/
structure Data where
  alignBam : Str
  sampleName : Str
  hlavalidate : Option Str
  hla : Option Str
  rest : List (Str × Str)
deriving DecidableEq

/-- Option-valued map over a list, failing if any element fails; models a
Python loop that may raise on some element. -/
def mapMO {α β : Type} (g : α → Option β) : List α → Option (List β)
  | [] => some []
  | x :: xs =>
    match g x, mapMO g xs with
    | some y, some ys => some (y :: ys)
    | _, _ => none

/-- Python `os.path.basename`: the part after the last "/". -/
def basename (p : Str) : Str :=
  ((splitOnCh '/' p).reverse).headD []

/-- Python `os.path.dirname`: everything before the last "/" (modulo the
root-path corner case, unused here). -/
def dirname (p : Str) : Str :=
  joinCh '/' (splitOnCh '/' p).dropLast

/-- Python `os.path.join` for a relative second component. -/
def pathJoin (a b : Str) : Str :=
  if a = [] then b
  else if a.getLast? = some '/' then a ++ b
  else a ++ '/' :: b

/-- Python `s.replace(pat, repl)` with fuel (all call sites pass a
non-empty `pat`, so fuel `s.length` suffices): replaces every
non-overlapping occurrence, left to right. -/
def replaceAllF (pat repl : Str) : Nat → Str → Str
  | 0, s => s
  | _ + 1, [] => []
  | fuel + 1, a :: as =>
    if !pat.isEmpty && pat.isPrefixOf (a :: as) then
      repl ++ replaceAllF pat repl fuel ((a :: as).drop pat.length)
    else a :: replaceAllF pat repl fuel as

/-- Python `s.replace(pat, repl)` for non-empty `pat`. -/
def replaceAll (pat repl s : Str) : Str :=
  replaceAllF pat repl s.length s

/-- Glob match for a pattern `pre ++ "*" ++ suf` where `*` matches any
(possibly empty) run of characters other than "/". -/
def globStarMatch (pre suf p : Str) : Bool :=
  pre.isPrefixOf p && suf.isSuffixOf (p.drop pre.length) &&
    !((p.drop pre.length).take ((p.drop pre.length).length - suf.length)).contains '/'

/-- Glob pattern `hla_base + ".HLA-*.gt"` used by `_organize_calls`. -/
def gtGlobMatch (hla_base p : Str) : Bool :=
  globStarMatch (hla_base ++ ".HLA-".toList) ".gt".toList p

/-- Glob pattern `hla_base + ".*"` used by `run`. -/
def runGlobMatch (hla_base p : Str) : Bool :=
  globStarMatch (hla_base ++ ['.']) [] p

/-- Decimal rendering of a natural number, as `csv.writer` stringifies the
`len(total_options)` int field. -/
def natStr (n : Nat) : Str := (Nat.repr n).toList

/-- Truth set: the nested dict `{sample: {locus: [alleles]}}` flattened to
an association list keyed by the (sample, locus) pair; later insertions
shadow earlier ones, as dict assignment does. -/
abbrev Truthset := List ((Str × Str) × List Str)

/-- Python `tz.get_in([sample, hla_locus], hla_truth, [])`. -/
def tsGet (ts : Truthset) (sample locus : Str) : List Str :=
  match ts.find? fun e => decide (e.1.1 = sample) && decide (e.1.2 = locus) with
  | some e => e.2
  | none => []

/-- Python `tz.update_in(out, [sample, locus], ...)` whose update function
ignores the previous value (its argument is shadowed inside the list
comprehension), i.e. plain dict assignment. -/
def tsInsert (ts : Truthset) (sample locus : Str) (v : List Str) : Truthset :=
  ((sample, locus), v) :: ts

/-- Python ASCII `str.strip()` whitespace characters. -/
def isPySpace (c : Char) : Bool :=
  c = ' ' || c = '\t' || c = '\n' || c = '\r' || c = '\x0b' || c = '\x0c'

/-- Python `s.strip()`. -/
def stripPy (s : Str) : Str :=
  ((s.dropWhile isPySpace).reverse.dropWhile isPySpace).reverse

/-- Translation of `[x.strip() for x in alleles.split(";")]`
(bwakit.py line 86). -/
def parseAlleles (alleles : Str) : List Str :=
  (splitOnCh ';' alleles).map stripPy

/-- Destructuring `sample, locus, alleles = row`; fails (ValueError) unless
the CSV row has exactly three fields. -/
def parseTruthRow (row : List Str) : Option (Str × Str × Str) :=
  match row with
  | [s, l, a] => some (s, l, a)
  | _ => none

/-- Translation of the truth-CSV reading loop (bwakit.py lines 82-86):
skip the header row, skip empty rows, and fold the remaining
(sample, locus, alleles) rows into the nested dict.  `none` models the
exceptions (StopIteration on an empty file, ValueError on a row without
exactly three fields). -/
def buildTruth (rows : List (List Str)) : Option Truthset :=
  match rows with
  | [] => none
  | _ :: rest =>
    (mapMO parseTruthRow (rest.filter fun l => !l.isEmpty)).map fun trs =>
      trs.foldl (fun acc t => tsInsert acc t.1 t.2.1 (parseAlleles t.2.2)) []

/-- Python `csv.reader` on one line of unquoted fields: an empty line
yields the empty row, otherwise split on ",". -/
def parseCsvLine (line : Str) : List Str :=
  if line.isEmpty then [] else splitOnCh ',' line

/-- Translation of `get_hla_truthset` (bwakit.py lines 76-87). -/
def get_hla_truthset (fs : FS) (data : Data) : Option Truthset :=
  match data.hlavalidate with
  | none => some []
  | some val_csv =>
    if val_csv.isEmpty then some []
    else
      match fsLookup fs val_csv with
      | none => some []
      | some lines => buildTruth (lines.map parseCsvLine)

/-- Destructuring `_, aone, atwo, m = fields`; fails (ValueError) unless
given exactly four fields. -/
def parseFields (fields : List Str) : Option (Str × Str × Str) :=
  match fields with
  | [_, aone, atwo, m] => some (aone, atwo, m)
  | _ => none

/-- Translation of `_, aone, atwo, m = line.split("\t")[:4]`
(bwakit.py line 49). -/
def parseGtLine (line : Str) : Option (Str × Str × Str) :=
  parseFields ((splitOnCh '\t' line).take 4)

/-- The protein pair `(_hla_protein(aone), _hla_protein(atwo))` added to
`total_options` for each parsed line (bwakit.py line 53). -/
def proteinPair (t : Str × Str × Str) : Str × Str :=
  (hla_protein t.1, hla_protein t.2.1)

/-- The row written for one genotype file (bwakit.py lines 51-64): `first`
is the parse of the file's first line, `parsed` the parses of all its
lines.  `total_options` is the set of distinct protein pairs; `valstatus`
compares truth and called protein sets when truth alleles exist. -/
def reportRow (sample hla_locus : Str) (hla_truth : Truthset)
    (first : Str × Str × Str) (parsed : List (Str × Str × Str)) : List Str :=
  let call_alleles := [first.1, first.2.1]
  let mismatches := first.2.2
  let truth_alleles := tsGet hla_truth sample hla_locus
  let valstatus :=
    if truth_alleles ≠ [] then
      if ((truth_alleles.map hla_protein).toFinset ∩
            (call_alleles.map hla_protein).toFinset).card
          = (call_alleles.map hla_protein).toFinset.card
      then "yes".toList else "no".toList
    else []
  [sample, hla_locus, mismatches,
   natStr ((parsed.map proteinPair).toFinset.card),
   joinCh ';' call_alleles, joinCh ';' truth_alleles, valstatus]

/-- Processing of one genotype file (bwakit.py lines 46-64): parse every
line, and when `total_options` is non-empty (i.e. at least one line was
parsed) emit the single report row.  `none` models a ValueError on a line
with fewer than four tab-separated fields. -/
def processGtFile (sample hla_locus : Str) (hla_truth : Truthset)
    (lines : List Str) : Option (List (List Str)) :=
  (mapMO parseGtLine lines).map fun parsed =>
    match parsed with
    | [] => []
    | first :: _ => [reportRow sample hla_locus hla_truth first parsed]

/-- Translation of the locus computation (bwakit.py lines 44-45):
`os.path.basename(genotype_file).replace("%s.hla.HLA-" %
os.path.basename(align_file), "").replace(".gt", "")`. -/
def locusOf (align_file genotype_file : Str) : Str :=
  replaceAll ".gt".toList []
    (replaceAll (basename align_file ++ ".hla.HLA-".toList) []
      (basename genotype_file))

/-- The header row written first (bwakit.py line 42). -/
def headerRow : List Str :=
  ["sample".toList, "locus".toList, "mismatches".toList, "options".toList,
   "alleles".toList, "expected".toList, "validates".toList]

/-- Rows contributed by one globbed genotype file. -/
def fileRows (sample align_file : Str) (hla_truth : Truthset)
    (f : Str × List Str) : Option (List (List Str)) :=
  processGtFile sample (locusOf align_file f.1) hla_truth f.2

/-- Data rows of the report: one pass over the files matching
`hla_base + ".HLA-*.gt"`, in filesystem order. -/
def reportRows (fs : FS) (hla_base : Str) (data : Data)
    (hla_truth : Truthset) : Option (List (List Str)) :=
  (mapMO (fileRows data.sampleName data.alignBam hla_truth)
      (fs.filter fun f => gtGlobMatch hla_base f.1)).map List.flatten

/-- Translation of `_organize_calls` (bwakit.py lines 33-65): build the
truth set, walk the globbed genotype files, and write the CSV report
(header row then one row per non-empty file) to `out_file`, returning it.
`none` models an uncaught exception during parsing. -/
def organize_calls (fs : FS) (out_file hla_base : Str) (data : Data) :
    Option (FS × Str) :=
  (get_hla_truthset fs data).bind fun hla_truth =>
    (reportRows fs hla_base data hla_truth).map fun rows =>
      (fsWrite fs out_file ((headerRow :: rows).map (joinCh ',')), out_file)

/-- Translation of `hla_base` (bwakit.py lines 22-23):
`os.path.join(safe_makedir(os.path.join(os.path.dirname(align_file),
"hla")), os.path.basename(align_file) + ".hla")` (the `safe_makedir`
side effect of creating the directory is not modelled). -/
def hlaBase (data : Data) : Str :=
  pathJoin (pathJoin (dirname data.alignBam) "hla".toList)
    (basename data.alignBam ++ ".hla".toList)

/-- Result of `run`: the filesystem, the returned `data` mapping, and the
external commands invoked through `do.run`. -/
structure RunOut where
  fs : FS
  data : Data
  cmds : List Str
deriving DecidableEq

/-- Translation of `run` (bwakit.py lines 17-31).  `bwakit_dir` is the
directory of the external `run-bwamem` binary (environment-supplied).
Modelled from the spec: `do.run` invokes the external genotyping tool; its
command line is recorded in `cmds` and the genotype files it produces are
taken to be the ones already present in `fs`. -/
def run (bwakit_dir : Str) (fs : FS) (data : Data) : Option RunOut :=
  let hla_base := hlaBase data
  if 0 < (fs.filter fun f => runGlobMatch hla_base f.1).length then
    let out_file := hla_base ++ ".top".toList
    if file_exists fs out_file then
      some ⟨fs, { data with hla := some out_file }, []⟩
    else
      let cmd := bwakit_dir ++ "/run-HLA ".toList ++ hla_base
      (organize_calls fs out_file hla_base data).map fun r =>
        ⟨r.1, { data with hla := some r.2 }, [cmd]⟩
  else
    some ⟨fs, data, []⟩

theorem mapMO_nil {α β : Type} (g : α → Option β) : mapMO g [] = some [] :=
  rfl

theorem mapMO_length {α β : Type} {g : α → Option β} :
    ∀ {xs : List α} {ys : List β}, mapMO g xs = some ys →
      ys.length = xs.length := by
  intro xs
  induction xs with
  | nil => intro ys h; simp [mapMO] at h; simp [← h]
  | cons x xs ih =>
    intro ys h
    simp only [mapMO] at h
    cases hx : g x with
    | none => rw [hx] at h; simp at h
    | some y =>
      rw [hx] at h
      cases hxs : mapMO g xs with
      | none => rw [hxs] at h; simp at h
      | some ys' =>
        rw [hxs] at h
        simp at h
        subst h
        simp [ih hxs]

theorem mapMO_mem {α β : Type} {g : α → Option β} :
    ∀ {xs : List α} {ys : List β}, mapMO g xs = some ys →
      ∀ y ∈ ys, ∃ x ∈ xs, g x = some y := by
  intro xs
  induction xs with
  | nil => intro ys h; simp [mapMO] at h; subst h; simp
  | cons x xs ih =>
    intro ys h
    simp only [mapMO] at h
    cases hx : g x with
    | none => rw [hx] at h; simp at h
    | some y0 =>
      rw [hx] at h
      cases hxs : mapMO g xs with
      | none => rw [hxs] at h; simp at h
      | some ys' =>
        rw [hxs] at h
        simp at h
        subst h
        intro y hy
        rcases List.mem_cons.mp hy with hy | hy
        · exact ⟨x, List.mem_cons_self x xs, hy ▸ hx⟩
        · rcases ih hxs y hy with ⟨x', hx', hgx'⟩
          exact ⟨x', List.mem_cons_of_mem x hx', hgx'⟩

theorem fsLookup_fsWrite (fs : FS) (p : Str) (content : List Str) :
    fsLookup (fsWrite fs p content) p = some content := by
  simp [fsLookup, fsWrite, List.find?_cons_of_pos]

theorem tsGet_nil (sample locus : Str) : tsGet [] sample locus = [] :=
  rfl

theorem tsGet_cons (s' l' : Str) (v : List Str) (ts : Truthset)
    (sample locus : Str) :
    tsGet (((s', l'), v) :: ts) sample locus =
      if s' = sample ∧ l' = locus then v else tsGet ts sample locus := by
  by_cases h : s' = sample ∧ l' = locus
  · simp [tsGet, List.find?_cons_of_pos, h.1, h.2]
  · rw [if_neg h]
    have hb : (decide (s' = sample) && decide (l' = locus)) = false := by
      simp only [Bool.and_eq_false_iff, decide_eq_false_iff_not]
      tauto
    simp only [tsGet, List.find?_cons, hb]

theorem reportRow_length (sample hla_locus : Str) (hla_truth : Truthset)
    (first : Str × Str × Str) (parsed : List (Str × Str × Str)) :
    (reportRow sample hla_locus hla_truth first parsed).length = 7 := by
  simp [reportRow]

theorem processGtFile_nil (sample hla_locus : Str) (hla_truth : Truthset) :
    processGtFile sample hla_locus hla_truth [] = some [] :=
  rfl

theorem processGtFile_elim {sample hla_locus : Str} {hla_truth : Truthset}
    {lines : List Str} {out : List (List Str)}
    (h : processGtFile sample hla_locus hla_truth lines = some out) :
    ∃ parsed, mapMO parseGtLine lines = some parsed ∧
      out = (match parsed with
             | [] => []
             | first :: _ => [reportRow sample hla_locus hla_truth first parsed]) := by
  simp only [processGtFile] at h
  cases hm : mapMO parseGtLine lines with
  | none => rw [hm] at h; simp at h
  | some parsed =>
    rw [hm] at h
    simp at h
    exact ⟨parsed, rfl, h.symm⟩

theorem fileRows_length {sample align_file : Str} {hla_truth : Truthset}
    {f : Str × List Str} {l : List (List Str)}
    (h : fileRows sample align_file hla_truth f = some l) :
    l.length = if f.2.isEmpty then 0 else 1 := by
  rcases processGtFile_elim h with ⟨parsed, hm, hout⟩
  cases hf : f.2 with
  | nil =>
    rw [hf] at hm
    simp [mapMO] at hm
    subst hm
    simp [hout]
  | cons a as =>
    rw [hf] at hm
    have hlen := mapMO_length hm
    cases parsed with
    | nil => simp at hlen
    | cons p ps => simp [hout]

theorem mem_reportRows {fs : FS} {hla_base : Str} {data : Data}
    {hla_truth : Truthset} {rows : List (List Str)} {r : List Str}
    (h : reportRows fs hla_base data hla_truth = some rows) (hr : r ∈ rows) :
    ∃ hla_locus first parsed,
      r = reportRow data.sampleName hla_locus hla_truth first parsed := by
  simp only [reportRows] at h
  cases hm : mapMO (fileRows data.sampleName data.alignBam hla_truth)
      (fs.filter fun f => gtGlobMatch hla_base f.1) with
  | none => rw [hm] at h; simp at h
  | some rls =>
    rw [hm] at h
    simp at h
    subst h
    rcases List.mem_flatten.mp hr with ⟨l, hl, hrl⟩
    rcases mapMO_mem hm l hl with ⟨f, _, hgf⟩
    rcases processGtFile_elim hgf with ⟨parsed, _, hout⟩
    cases parsed with
    | nil => subst hout; simp at hrl
    | cons first ps =>
      subst hout
      simp at hrl
      exact ⟨locusOf data.alignBam f.1, first, first :: ps, hrl⟩

theorem organize_calls_elim {fs : FS} {out_file hla_base : Str} {data : Data}
    {pr : FS × Str}
    (h : organize_calls fs out_file hla_base data = some pr) :
    ∃ hla_truth rows, get_hla_truthset fs data = some hla_truth ∧
      reportRows fs hla_base data hla_truth = some rows ∧
      pr = (fsWrite fs out_file ((headerRow :: rows).map (joinCh ',')),
            out_file) := by
  simp only [organize_calls] at h
  cases ht : get_hla_truthset fs data with
  | none => rw [ht] at h; simp at h
  | some hla_truth =>
    rw [ht] at h
    simp only [Option.some_bind] at h
    cases hrr : reportRows fs hla_base data hla_truth with
    | none => rw [hrr] at h; simp at h
    | some rows =>
      rw [hrr] at h
      simp at h
      exact ⟨hla_truth, rows, rfl, hrr, h.symm⟩

theorem card_inter_eq_iff (T C : Finset Str) :
    (T ∩ C).card = C.card ↔ C ⊆ T := by
  constructor
  · intro h
    have hsub : T ∩ C ⊆ C := Finset.inter_subset_right
    have heq : T ∩ C = C :=
      Finset.eq_of_subset_of_card_le hsub (le_of_eq h.symm)
    exact Finset.inter_eq_right.mp heq
  · intro h
    rw [Finset.inter_eq_right.mpr h]

theorem tsGet_foldl (trs : List (Str × Str × Str)) (acc : Truthset)
    (sample locus : Str) :
    tsGet (trs.foldl (fun a t => tsInsert a t.1 t.2.1 (parseAlleles t.2.2))
        acc) sample locus
      = Option.elim
          ((trs.filter fun t =>
              decide (t.1 = sample) && decide (t.2.1 = locus)).getLast?)
          (tsGet acc sample locus) (fun t => parseAlleles t.2.2) := by
  induction trs generalizing acc with
  | nil => simp
  | cons t ts ih =>
    rw [List.foldl_cons, ih, List.filter_cons]
    by_cases hp : (decide (t.1 = sample) && decide (t.2.1 = locus)) = true
    · rw [if_pos hp]
      have heq : t.1 = sample ∧ t.2.1 = locus := by
        simpa [Bool.and_eq_true, decide_eq_true_eq] using hp
      cases hq : ts.filter fun u =>
          decide (u.1 = sample) && decide (u.2.1 = locus) with
      | nil =>
        simp only [hq, List.getLast?_nil, List.getLast?_singleton,
          Option.elim]
        simp [tsInsert, tsGet_cons, heq.1, heq.2]
      | cons v vs =>
        rw [List.getLast?_cons_cons]
        rcases h2 : (v :: vs).getLast? with _ | w
        · exact absurd (List.getLast?_eq_none_iff.mp h2) (by simp)
        · simp [Option.elim]
    · rw [if_neg hp]
      have hne' : ¬(t.1 = sample ∧ t.2.1 = locus) := by
        intro hc
        exact hp (by simp [hc.1, hc.2])
      cases hq : ts.filter fun u =>
          decide (u.1 = sample) && decide (u.2.1 = locus) with
      | nil =>
        simp only [hq, List.getLast?_nil, Option.elim]
        simp [tsInsert, tsGet_cons, hne']
      | cons v vs =>
        rcases h2 : (v :: vs).getLast? with _ | w
        · exact absurd (List.getLast?_eq_none_iff.mp h2) (by simp)
        · simp [Option.elim]

/-- C10: when the truth CSV exists, `get_hla_truthset` skips the header
row and all empty rows, maps each remaining (sample, locus, alleles) row
to the ";"-split, whitespace-stripped allele list, and among rows sharing
a sample and locus the last one wins. -/
theorem truthset_skips_header_and_last_wins (hdr : List Str)
    (rest : List (List Str)) (ts : Truthset) (trs : List (Str × Str × Str))
    (hm : mapMO parseTruthRow (rest.filter fun l => !l.isEmpty) = some trs)
    (hb : buildTruth (hdr :: rest) = some ts) :
    ∀ sample locus, tsGet ts sample locus =
      Option.elim
        ((trs.filter fun t =>
            decide (t.1 = sample) && decide (t.2.1 = locus)).getLast?)
        [] (fun t => parseAlleles t.2.2) := by
  intro sample locus
  simp only [buildTruth, hm, Option.map_some', Option.some.injEq] at hb
  rw [← hb, tsGet_foldl]
  rfl

/-- Witness for C10: a truth CSV with a header row, an empty row, and two
rows for the same sample and locus; the later row determines the stored
allele list, with ";"-splitting and whitespace stripping. -/
theorem truthset_skips_header_and_last_wins_witness :
    tsGet [(("s".toList, "A".toList), ["three".toList]),
           (("s".toList, "A".toList), ["one".toList, "two".toList])]
        "s".toList "A".toList
      = ["three".toList] := by
  have h := truthset_skips_header_and_last_wins
    ["h".toList, "h".toList, "h".toList]
    [["s".toList, "A".toList, " one ;two".toList], [],
     ["s".toList, "A".toList, "three".toList]]
    [(("s".toList, "A".toList), ["three".toList]),
     (("s".toList, "A".toList), ["one".toList, "two".toList])]
    [("s".toList, "A".toList, " one ;two".toList),
     ("s".toList, "A".toList, "three".toList)]
    (by decide) (by decide) "s".toList "A".toList
  exact h.trans (by decide)

/-- C1: in every report row written by `_organize_calls`, when the truth
set holds a non-empty allele list for the row's sample and locus, the
"validates" column is "yes" exactly when every protein of the two
first-line called alleles occurs among the proteins of the truth alleles
(equivalently, the protein-set intersection has the size of the called
protein set), and "no" otherwise; with no truth alleles it is the empty
string. -/
theorem validates_column (sample hla_locus : Str) (hla_truth : Truthset)
    (first : Str × Str × Str) (parsed : List (Str × Str × Str)) :
    (tsGet hla_truth sample hla_locus ≠ [] →
      (((reportRow sample hla_locus hla_truth first parsed)[6]?
          = some "yes".toList ↔
        ∀ p ∈ [first.1, first.2.1].map hla_protein,
          p ∈ (tsGet hla_truth sample hla_locus).map hla_protein) ∧
       (¬(∀ p ∈ [first.1, first.2.1].map hla_protein,
            p ∈ (tsGet hla_truth sample hla_locus).map hla_protein) →
        (reportRow sample hla_locus hla_truth first parsed)[6]?
          = some "no".toList))) ∧
    (tsGet hla_truth sample hla_locus = [] →
      (reportRow sample hla_locus hla_truth first parsed)[6]? = some []) := by
  have hiff :
      ((((tsGet hla_truth sample hla_locus).map hla_protein).toFinset ∩
          ([first.1, first.2.1].map hla_protein).toFinset).card
        = ([first.1, first.2.1].map hla_protein).toFinset.card) ↔
      ∀ p ∈ [first.1, first.2.1].map hla_protein,
        p ∈ (tsGet hla_truth sample hla_locus).map hla_protein := by
    rw [card_inter_eq_iff]
    constructor
    · intro h p hp
      exact List.mem_toFinset.mp (h (List.mem_toFinset.mpr hp))
    · intro h x hx
      exact List.mem_toFinset.mpr (h x (List.mem_toFinset.mp hx))
  have hr6 : (reportRow sample hla_locus hla_truth first parsed)[6]?
      = some (if tsGet hla_truth sample hla_locus ≠ [] then
          (if (((tsGet hla_truth sample hla_locus).map hla_protein).toFinset ∩
                ([first.1, first.2.1].map hla_protein).toFinset).card
              = ([first.1, first.2.1].map hla_protein).toFinset.card
           then "yes".toList else "no".toList)
        else []) := rfl
  rw [hr6]
  constructor
  · intro hta
    rw [if_pos hta]
    by_cases hc :
        (((tsGet hla_truth sample hla_locus).map hla_protein).toFinset ∩
            ([first.1, first.2.1].map hla_protein).toFinset).card
          = ([first.1, first.2.1].map hla_protein).toFinset.card
    · rw [if_pos hc]
      refine ⟨⟨fun _ => hiff.mp hc, fun _ => rfl⟩, fun hno => ?_⟩
      exact absurd (hiff.mp hc) hno
    · rw [if_neg hc]
      refine ⟨⟨fun hy => ?_, fun hall => absurd (hiff.mpr hall) hc⟩,
        fun _ => rfl⟩
      exact absurd (Option.some.inj hy) (by decide)
  · intro hta
    rw [if_neg (fun h => h hta)]

/-- Witness for C1: both called proteins occur among the truth proteins,
so the validates column reads "yes". -/
theorem validates_column_witness :
    (reportRow "s".toList "A".toList
        [(("s".toList, "A".toList),
          ["A*01:01:01".toList, "A*01:02".toList])]
        ("A*01:01:02".toList, "A*01:02:05".toList, "0".toList)
        [("A*01:01:02".toList, "A*01:02:05".toList, "0".toList)])[6]?
      = some "yes".toList := by
  have h := validates_column "s".toList "A".toList
    [(("s".toList, "A".toList), ["A*01:01:01".toList, "A*01:02".toList])]
    ("A*01:01:02".toList, "A*01:02:05".toList, "0".toList)
    [("A*01:01:02".toList, "A*01:02:05".toList, "0".toList)]
  exact (h.1 (by decide)).1.mpr (by decide)

/-- C3: every genotype line is split on tab characters and only the first
four fields are used; the alleles and mismatches columns are determined by
the file's first line alone; the options column is the number of distinct
protein pairs over all lines. -/
theorem gt_parsing_fields (sample hla_locus : Str) (hla_truth : Truthset)
    (lines : List Str) (first : Str × Str × Str)
    (rest : List (Str × Str × Str))
    (h : mapMO parseGtLine lines = some (first :: rest)) :
    processGtFile sample hla_locus hla_truth lines
        = some [reportRow sample hla_locus hla_truth first (first :: rest)] ∧
    (reportRow sample hla_locus hla_truth first (first :: rest))[2]?
        = some first.2.2 ∧
    (reportRow sample hla_locus hla_truth first (first :: rest))[4]?
        = some (joinCh ';' [first.1, first.2.1]) ∧
    (reportRow sample hla_locus hla_truth first (first :: rest))[3]?
        = some (natStr (((first :: rest).map proteinPair).toFinset.card)) ∧
    (∀ l1 l2 : Str,
      (splitOnCh '\t' l1).take 4 = (splitOnCh '\t' l2).take 4 →
        parseGtLine l1 = parseGtLine l2) := by
  refine ⟨?_, rfl, rfl, rfl, ?_⟩
  · simp [processGtFile, h]
  · intro l1 l2 he
    simp only [parseGtLine, he]

/-- Witness for C3 on a two-line genotype file sharing one protein pair. -/
theorem gt_parsing_fields_witness :
    (reportRow "s".toList "A".toList []
        ("A*01:01:02".toList, "A*01:02".toList, "3".toList)
        [("A*01:01:02".toList, "A*01:02".toList, "3".toList),
         ("A*01:01:05".toList, "A*01:02".toList, "4".toList)])[3]?
      = some (natStr
          (([("A*01:01:02".toList, "A*01:02".toList, "3".toList),
             ("A*01:01:05".toList, "A*01:02".toList, "4".toList)
            ].map proteinPair).toFinset.card)) := by
  have h := gt_parsing_fields "s".toList "A".toList []
    ["z\tA*01:01:02\tA*01:02\t3".toList, "z\tA*01:01:05\tA*01:02\t4".toList]
    ("A*01:01:02".toList, "A*01:02".toList, "3".toList)
    [("A*01:01:05".toList, "A*01:02".toList, "4".toList)]
    (by decide)
  exact h.2.2.2.1

/-- C9: a genotype file with zero lines contributes no row and raises no
error; a non-empty `total_options` (hence a written row) implies at least
one parsed line. -/
theorem empty_gt_file (sample hla_locus : Str) (hla_truth : Truthset) :
    processGtFile sample hla_locus hla_truth [] = some [] ∧
    ∀ lines out, processGtFile sample hla_locus hla_truth lines = some out →
      out ≠ [] → lines ≠ [] := by
  refine ⟨rfl, ?_⟩
  intro lines out h hne hl
  subst hl
  rw [processGtFile_nil] at h
  exact hne (Option.some.inj h).symm

/-- Witness for C9: a one-line genotype file yields a row, so its line
list is non-empty. -/
theorem empty_gt_file_witness :
    (["z\ta\tb\t0".toList] : List Str) ≠ [] :=
  (empty_gt_file "s".toList "A".toList []).2 ["z\ta\tb\t0".toList]
    [reportRow "s".toList "A".toList []
      ("a".toList, "b".toList, "0".toList)
      [("a".toList, "b".toList, "0".toList)]]
    (by decide) (by decide)

/-- C6: the report written by `_organize_calls` starts with the exact
seven-column header, and every data row has exactly seven fields in that
order. -/
theorem report_csv_shape (fs : FS) (out_file hla_base : Str) (data : Data)
    (fs' : FS) (rf : Str) (hla_truth : Truthset) (rows : List (List Str))
    (h : organize_calls fs out_file hla_base data = some (fs', rf))
    (ht : get_hla_truthset fs data = some hla_truth)
    (hr : reportRows fs hla_base data hla_truth = some rows) :
    fsLookup fs' out_file = some ((headerRow :: rows).map (joinCh ',')) ∧
    headerRow = ["sample".toList, "locus".toList, "mismatches".toList,
      "options".toList, "alleles".toList, "expected".toList,
      "validates".toList] ∧
    ∀ r ∈ rows, r.length = 7 := by
  rcases organize_calls_elim h with ⟨t', rows', ht', hr', hpr⟩
  rw [ht] at ht'
  cases Option.some.inj ht'
  rw [hr] at hr'
  cases Option.some.inj hr'
  have hfs : fs' = fsWrite fs out_file ((headerRow :: rows).map (joinCh ','))
    := congrArg Prod.fst hpr
  refine ⟨?_, rfl, ?_⟩
  · rw [hfs, fsLookup_fsWrite]
  · intro r hrr
    rcases mem_reportRows hr hrr with ⟨loc, first, parsed, hre⟩
    rw [hre]
    exact reportRow_length _ _ _ _ _

/-- Witness for C6 for one non-empty genotype file and no truth set. -/
theorem report_csv_shape_witness :
    fsLookup
        (fsWrite [("x.hla.HLA-A.gt".toList, ["z\ta\tb\t0".toList])]
          "o".toList
          ((headerRow ::
            [reportRow "s".toList (locusOf "x".toList "x.hla.HLA-A.gt".toList)
              [] ("a".toList, "b".toList, "0".toList)
              [("a".toList, "b".toList, "0".toList)]]).map (joinCh ',')))
        "o".toList
      = some ((headerRow ::
          [reportRow "s".toList (locusOf "x".toList "x.hla.HLA-A.gt".toList)
            [] ("a".toList, "b".toList, "0".toList)
            [("a".toList, "b".toList, "0".toList)]]).map (joinCh ',')) := by
  have h := report_csv_shape
    [("x.hla.HLA-A.gt".toList, ["z\ta\tb\t0".toList])]
    "o".toList "x.hla".toList
    ⟨"x".toList, "s".toList, none, none, []⟩
    (fsWrite [("x.hla.HLA-A.gt".toList, ["z\ta\tb\t0".toList])]
      "o".toList
      ((headerRow ::
        [reportRow "s".toList (locusOf "x".toList "x.hla.HLA-A.gt".toList)
          [] ("a".toList, "b".toList, "0".toList)
          [("a".toList, "b".toList, "0".toList)]]).map (joinCh ',')))
    "o".toList []
    [reportRow "s".toList (locusOf "x".toList "x.hla.HLA-A.gt".toList)
      [] ("a".toList, "b".toList, "0".toList)
      [("a".toList, "b".toList, "0".toList)]]
    (by decide) (by decide) (by decide)
  exact h.1

/-- C4: with the `hlavalidate` config entry absent, falsy, or naming a
missing file, `get_hla_truthset` returns the empty mapping, and every
report row produced under the empty truth set has empty expected and
validates columns. -/
theorem missing_truthset (fs : FS) (data : Data)
    (h : data.hlavalidate = none ∨ data.hlavalidate = some [] ∨
         ∀ p, data.hlavalidate = some p → fsLookup fs p = none) :
    get_hla_truthset fs data = some [] ∧
    ∀ hla_base rows, reportRows fs hla_base data [] = some rows →
      ∀ r ∈ rows, r[5]? = some [] ∧ r[6]? = some [] := by
  constructor
  · rcases h with h | h | h
    · simp [get_hla_truthset, h]
    · simp [get_hla_truthset, h]
    · cases hv : data.hlavalidate with
      | none => simp [get_hla_truthset, hv]
      | some p =>
        have hnone := h p hv
        simp [get_hla_truthset, hv, hnone, ite_self]
  · intro hla_base rows hr r hrr
    rcases mem_reportRows hr hrr with ⟨loc, first, parsed, hre⟩
    subst hre
    exact ⟨rfl, rfl⟩

/-- Witness for C4: an absent config entry gives the empty truth set, and
a concrete row built under it has empty expected and validates fields. -/
theorem missing_truthset_witness :
    get_hla_truthset [("x.hla.HLA-A.gt".toList, ["z\ta\tb\t0".toList])]
        ⟨"x".toList, "s".toList, none, none, []⟩ = some [] ∧
    (reportRow "s".toList "A".toList [] ("a".toList, "b".toList, "0".toList)
        [("a".toList, "b".toList, "0".toList)])[5]? = some [] := by
  have h := missing_truthset
    [("x.hla.HLA-A.gt".toList, ["z\ta\tb\t0".toList])]
    ⟨"x".toList, "s".toList, none, none, []⟩ (Or.inl rfl)
  refine ⟨h.1, ?_⟩
  exact (h.2 "x.hla".toList
    [reportRow "s".toList "A".toList [] ("a".toList, "b".toList, "0".toList)
      [("a".toList, "b".toList, "0".toList)]]
    (by decide) _ (by decide)).1

theorem flatten_rows_length {sample align_file : Str}
    {hla_truth : Truthset} :
    ∀ {gfs : List (Str × List Str)} {rls : List (List (List Str))},
      mapMO (fileRows sample align_file hla_truth) gfs = some rls →
        rls.flatten.length = (gfs.filter fun f => !f.2.isEmpty).length := by
  intro gfs
  induction gfs with
  | nil =>
    intro rls h
    simp [mapMO] at h
    subst h
    simp
  | cons f gfs ih =>
    intro rls h
    simp only [mapMO] at h
    cases hf : fileRows sample align_file hla_truth f with
    | none => rw [hf] at h; simp at h
    | some l =>
      rw [hf] at h
      cases hm : mapMO (fileRows sample align_file hla_truth) gfs with
      | none => rw [hm] at h; simp at h
      | some ls =>
        rw [hm] at h
        simp at h
        subst h
        have hl := fileRows_length hf
        rw [List.filter_cons]
        cases he : f.2.isEmpty with
        | true =>
          rw [he] at hl
          simp [hl, ih hm]
        | false =>
          rw [he] at hl
          simp [hl, ih hm, Nat.add_comm]

/-- Locus computation as the words of C2 describe it: the file's base name
with the prefix `basename(align_file) + ".hla.HLA-"` removed and the
suffix ".gt" removed (claim-side definition, to compare with `locusOf`,
the translation of the code's `str.replace` calls). -/
def locusSpec (align_file genotype_file : Str) : Str :=
  let b := basename genotype_file
  let afterPre := b.drop (basename align_file ++ ".hla.HLA-".toList).length
  afterPre.take (afterPre.length - (".gt".toList).length)

/-- Counterexample for C2: a genotype file matching the glob whose middle
part itself contains ".gt".  The code's `replace(".gt", "")` removes every
occurrence, so the written locus is "AB", not the prefix/suffix-stripped
"A.gtB" the claim describes. -/
theorem locus_column_counterexample :
    ((organize_calls [("x.hla.HLA-A.gtB.gt".toList, ["z\ta\tb\t0".toList])]
        "o".toList "x.hla".toList
        ⟨"x".toList, "s".toList, none, none, []⟩).bind fun pr =>
      (fsLookup pr.1 "o".toList).bind fun ls =>
        (ls[1]?).bind fun line => (splitOnCh ',' line)[1]?)
      = some "AB".toList ∧
    locusSpec "x".toList "x.hla.HLA-A.gtB.gt".toList = "A.gtB".toList ∧
    "AB".toList ≠ "A.gtB".toList := by
  refine ⟨by decide, by decide, by decide⟩

/-- C2 (amended): `_organize_calls` writes exactly one data row per
matching genotype file with at least one record line, and the locus column
is the file's base name with every occurrence of
`basename(align_file) + ".hla.HLA-"` removed and then every occurrence of
".gt" removed (Python `str.replace` semantics; this coincides with
prefix/suffix removal whenever the remaining middle contains neither
pattern). -/
theorem one_row_per_file (fs : FS) (out_file hla_base : Str) (data : Data)
    (fs' : FS) (rf : Str) (hla_truth : Truthset) (rows : List (List Str))
    (h : organize_calls fs out_file hla_base data = some (fs', rf))
    (ht : get_hla_truthset fs data = some hla_truth)
    (hr : reportRows fs hla_base data hla_truth = some rows) :
    rows.length = ((fs.filter fun f => gtGlobMatch hla_base f.1).filter
        fun f => !f.2.isEmpty).length ∧
    ∀ f ∈ fs.filter (fun f => gtGlobMatch hla_base f.1), ∀ rowsF,
      fileRows data.sampleName data.alignBam hla_truth f = some rowsF →
        (f.2 = [] → rowsF = []) ∧
        ∀ r ∈ rowsF, r[1]? = some (locusOf data.alignBam f.1) := by
  constructor
  · simp only [reportRows] at hr
    cases hm : mapMO (fileRows data.sampleName data.alignBam hla_truth)
        (fs.filter fun f => gtGlobMatch hla_base f.1) with
    | none => rw [hm] at hr; simp at hr
    | some rls =>
      rw [hm] at hr
      simp at hr
      subst hr
      exact flatten_rows_length hm
  · intro f hf rowsF hfr
    rcases processGtFile_elim hfr with ⟨parsed, hm', hout⟩
    constructor
    · intro hf2
      rw [hf2] at hm'
      simp [mapMO] at hm'
      subst hm'
      simp at hout
      exact hout
    · intro r hrr
      cases parsed with
      | nil =>
        subst hout
        simp at hrr
      | cons first ps =>
        subst hout
        simp at hrr
        subst hrr
        rfl

/-- Witness for C2 (amended) on one matching one-line genotype file. -/
theorem one_row_per_file_witness :
    ([reportRow "s".toList (locusOf "x".toList "x.hla.HLA-A.gt".toList) []
        ("a".toList, "b".toList, "0".toList)
        [("a".toList, "b".toList, "0".toList)]].length : Nat)
      = ((([("x.hla.HLA-A.gt".toList, ["z\ta\tb\t0".toList])] : FS).filter
            fun f => gtGlobMatch "x.hla".toList f.1).filter
          fun f => !f.2.isEmpty).length := by
  have h := one_row_per_file
    [("x.hla.HLA-A.gt".toList, ["z\ta\tb\t0".toList])]
    "o".toList "x.hla".toList
    ⟨"x".toList, "s".toList, none, none, []⟩
    (fsWrite [("x.hla.HLA-A.gt".toList, ["z\ta\tb\t0".toList])]
      "o".toList
      ((headerRow ::
        [reportRow "s".toList (locusOf "x".toList "x.hla.HLA-A.gt".toList)
          [] ("a".toList, "b".toList, "0".toList)
          [("a".toList, "b".toList, "0".toList)]]).map (joinCh ',')))
    "o".toList []
    [reportRow "s".toList (locusOf "x".toList "x.hla.HLA-A.gt".toList) []
      ("a".toList, "b".toList, "0".toList)
      [("a".toList, "b".toList, "0".toList)]]
    (by decide) (by decide) (by decide)
  exact h.1

theorem organize_calls_out {fs : FS} {out_file hla_base : Str}
    {data : Data} {pr : FS × Str}
    (h : organize_calls fs out_file hla_base data = some pr) :
    pr.2 = out_file := by
  rcases organize_calls_elim h with ⟨_, _, _, _, hpr⟩
  rw [hpr]

/-- C5: when some file matches `hla_base + ".*"` and the report file
already exists, `run` invokes no external command and leaves the
filesystem (hence that file's contents) unchanged; in either branch the
returned `data` equals the input with only `hla` set to
`{"calls": out_file}`. -/
theorem run_existing_report (bwakit_dir : Str) (fs : FS) (data : Data)
    (h : 0 < (fs.filter fun f => runGlobMatch (hlaBase data) f.1).length) :
    (file_exists fs (hlaBase data ++ ".top".toList) = true →
      run bwakit_dir fs data
        = some ⟨fs,
            { data with hla := some (hlaBase data ++ ".top".toList) }, []⟩) ∧
    (∀ ro, run bwakit_dir fs data = some ro →
      ro.data = { data with hla := some (hlaBase data ++ ".top".toList) }) := by
  constructor
  · intro hex
    simp only [run]
    rw [if_pos h, if_pos hex]
  · intro ro hro
    simp only [run] at hro
    rw [if_pos h] at hro
    by_cases hex : file_exists fs (hlaBase data ++ ".top".toList) = true
    · rw [if_pos hex] at hro
      rw [← Option.some.inj hro]
    · rw [if_neg hex] at hro
      cases ho : organize_calls fs (hlaBase data ++ ".top".toList)
          (hlaBase data) data with
      | none => rw [ho] at hro; simp at hro
      | some pr =>
        rw [ho] at hro
        simp only [Option.map_some', Option.some.injEq] at hro
        rw [← hro]
        simp [organize_calls_out ho]

/-- Witness for C5: the report file exists already, so no command runs and
the returned data only gains the `hla` entry. -/
theorem run_existing_report_witness :
    run "b".toList [("hla/x.bam.hla.top".toList, ["r".toList])]
        ⟨"x.bam".toList, "s".toList, none, none, []⟩
      = some ⟨[("hla/x.bam.hla.top".toList, ["r".toList])],
          { alignBam := "x.bam".toList, sampleName := "s".toList,
            hlavalidate := none,
            hla := some (hlaBase ⟨"x.bam".toList, "s".toList, none, none, []⟩
              ++ ".top".toList),
            rest := [] }, []⟩ :=
  (run_existing_report "b".toList
    [("hla/x.bam.hla.top".toList, ["r".toList])]
    ⟨"x.bam".toList, "s".toList, none, none, []⟩ (by decide)).1 (by decide)

/-- C7: when no file matches `hla_base + ".*"`, `run` returns its input
unchanged, invokes no command and adds no `hla` entry. -/
theorem run_no_matching_files (bwakit_dir : Str) (fs : FS) (data : Data)
    (h : (fs.filter fun f => runGlobMatch (hlaBase data) f.1).length = 0) :
    run bwakit_dir fs data = some ⟨fs, data, []⟩ := by
  simp only [run]
  rw [if_neg (by omega)]

/-- Witness for C7 on an empty filesystem. -/
theorem run_no_matching_files_witness :
    run "b".toList []
        ⟨"x.bam".toList, "s".toList, none, none, []⟩
      = some ⟨[], ⟨"x.bam".toList, "s".toList, none, none, []⟩, []⟩ :=
  run_no_matching_files "b".toList []
    ⟨"x.bam".toList, "s".toList, none, none, []⟩ (by decide)

end BwakitHLA
